import Mathlib

/-!
# Verification of the rune-alloc low-level collections layer

This file gives a shallow embedding of the repository's fallible
allocation layer:

* `crates/rune-alloc/src/raw_vec.rs` — the growable raw buffer
  (`RawVec`): capacity tracking, amortized and exact growth, shrinking,
  and the overflow guards.  Every definition in the `RawVec` section is
  translated directly from that file.
* `crates/rune-alloc/src/btree/map/entry.rs` — the B-tree map entry API
  (`Entry`, `VacantEntry`, `OccupiedEntry`).  The node layer the entries
  commit through (`insert_recursing`, `remove_kv_tracking`,
  `push_internal_level`, `pop_internal_level`) is not part of the sampled
  sources, so those operations are modelled from the specification's
  description of the node layer, and marked as such.

Machine integers (`usize`) are modelled as `Nat` together with an explicit
word width `W`; wrapping operations take `% 2^W` exactly where the source
uses `wrapping_sub` / `wrapping_mul`.  Fallible operations return
`Except`.  Allocator interactions are recorded in an explicit call trace
so that "the allocator is never consulted" is a provable statement.
-/

/-- Wrapping subtraction on `W`-bit unsigned integers (Rust `usize::wrapping_sub`). -/
def wsub (W a b : Nat) : Nat := (a + (2 ^ W - b)) % 2 ^ W

/-- Checked addition on `W`-bit unsigned integers (Rust `usize::checked_add`). -/
def checkedAdd (W a b : Nat) : Option Nat :=
  if a + b < 2 ^ W then some (a + b) else none

/-- Largest value of `isize` for word width `W` (Rust `isize::MAX as usize`). -/
def isizeMax (W : Nat) : Nat := 2 ^ (W - 1) - 1

/-- Largest value of `usize` for word width `W` (Rust `usize::MAX`). -/
def usizeMax (W : Nat) : Nat := 2 ^ W - 1

/-- `core::alloc::Layout`: a size plus alignment descriptor for a memory request. -/
structure Layout where
  size : Nat
  align : Nat
deriving DecidableEq, Repr

/-- Static description of a Rust element type `T`: its size and alignment.
The two proof fields record what the Rust compiler guarantees for every
sized type (positive alignment, size a multiple of alignment); the source
`assert!(mem::size_of::<T>() % mem::align_of::<T>() == 0)` in
`current_memory`/`shrink` relies on exactly these facts. -/
structure TypeDesc where
  size : Nat
  align : Nat
  align_pos : 0 < align
  size_align : size % align = 0

/-- The error type of `rune-alloc` (`Error::CapacityOverflow` and the
allocation failure carrying the layout that was declined, as built by
`AllocError { layout }.into()` in `raw_vec.rs`). -/
inductive Error where
  | capacityOverflow
  | allocError (layout : Layout)
deriving DecidableEq, Repr

/-- One interaction with the allocator, as performed by `raw_vec.rs`. -/
inductive AllocCall where
  | allocate (layout : Layout)
  | grow (ptr : Nat) (oldLayout newLayout : Layout)
  | shrink (ptr : Nat) (oldLayout newLayout : Layout)
  | deallocate (ptr : Nat) (layout : Layout)
deriving DecidableEq, Repr

/-- The allocator contract (spec §4.1): each fallible operation either
returns the address of a block or declines.  The model is an oracle: any
behavior of a real allocator is one choice of these three functions. -/
structure AllocatorModel where
  allocate : Layout → Option Nat
  grow : Nat → Layout → Layout → Option Nat
  shrink : Nat → Layout → Layout → Option Nat

/-- `Layout::array::<T>(n)`: layout for `n` consecutive `T`s; errors when
the total size would exceed `isize::MAX - (align - 1)` bytes. -/
def layoutArray (td : TypeDesc) (W n : Nat) : Option Layout :=
  if td.size = 0 then some ⟨0, td.align⟩
  else if n ≤ (isizeMax W - (td.align - 1)) / td.size then some ⟨td.size * n, td.align⟩
  else none

/-- `alloc_guard` (`raw_vec.rs`): on targets narrower than 64 bits, reject
allocation sizes above `isize::MAX`. -/
def alloc_guard (W allocSize : Nat) : Except Error Unit :=
  if W < 64 ∧ allocSize > isizeMax W then .error .capacityOverflow else .ok ()

/-- The state of a `RawVec<T, A>`: its pointer and tracked capacity
(the allocator reference is passed explicitly to each operation). -/
structure RawVec where
  ptr : Nat
  cap : Nat
deriving DecidableEq, Repr

/-- `Unique::dangling()`: the non-dereferenced sentinel pointer, whose
address is the type's alignment. -/
def danglingPtr (td : TypeDesc) : Nat := td.align

/-- `RawVec::new_in`: capacity 0, no allocation. -/
def RawVec.new_in (td : TypeDesc) : RawVec :=
  ⟨danglingPtr td, 0⟩

/-- `RawVec::MIN_NON_ZERO_CAP`: 8 for 1-byte elements, 4 for elements of
at most 1 KiB, 1 otherwise. -/
def MIN_NON_ZERO_CAP (td : TypeDesc) : Nat :=
  if td.size = 1 then 8
  else if td.size ≤ 1024 then 4
  else 1

/-- `RawVec::try_allocate_in` (uninitialized variant): empty for a
zero-sized type or zero capacity; otherwise compute the array layout,
run `alloc_guard`, and only then consult the allocator. -/
def RawVec.try_allocate_in (td : TypeDesc) (W : Nat) (a : AllocatorModel)
    (capacity : Nat) : Except Error RawVec × List AllocCall :=
  if td.size = 0 ∨ capacity = 0 then (.ok (RawVec.new_in td), [])
  else
    match layoutArray td W capacity with
    | none => (.error .capacityOverflow, [])
    | some layout =>
      match alloc_guard W layout.size with
      | .error e => (.error e, [])
      | .ok _ =>
        match a.allocate layout with
        | none => (.error (.allocError layout), [.allocate layout])
        | some p => (.ok ⟨p, capacity⟩, [.allocate layout])

/-- `RawVec::try_with_capacity_in`. -/
def RawVec.try_with_capacity_in (td : TypeDesc) (W : Nat) (a : AllocatorModel)
    (capacity : Nat) : Except Error RawVec × List AllocCall :=
  RawVec.try_allocate_in td W a capacity

/-- `RawVec::capacity`: `usize::MAX` for a zero-sized type, else the
tracked value. -/
def RawVec.capacity (td : TypeDesc) (W : Nat) (v : RawVec) : Nat :=
  if td.size = 0 then usizeMax W else v.cap

/-- `RawVec::current_memory`: `None` for a zero-sized type or an
unallocated buffer, otherwise the pointer and the layout of the backing
block (`size_of::<T>().wrapping_mul(self.cap)` bytes). -/
def RawVec.current_memory (td : TypeDesc) (W : Nat) (v : RawVec) :
    Option (Nat × Layout) :=
  if td.size = 0 ∨ v.cap = 0 then none
  else some (v.ptr, ⟨td.size * v.cap % 2 ^ W, td.align⟩)

/-- `RawVec::needs_to_grow`: `additional > self.capacity().wrapping_sub(len)`. -/
def RawVec.needs_to_grow (td : TypeDesc) (W : Nat) (v : RawVec)
    (len additional : Nat) : Bool :=
  additional > wsub W (v.capacity td W) len

/-- `finish_grow`: validate the new layout, run `alloc_guard`, then grow
the current block or allocate a fresh one.  Returns the new pointer. -/
def finish_grow (W : Nat) (a : AllocatorModel) (newLayout : Option Layout)
    (currentMemory : Option (Nat × Layout)) : Except Error Nat × List AllocCall :=
  match newLayout with
  | none => (.error .capacityOverflow, [])
  | some nl =>
    match alloc_guard W nl.size with
    | .error e => (.error e, [])
    | .ok _ =>
      match currentMemory with
      | some (p, old) =>
        match a.grow p old nl with
        | none => (.error (.allocError nl), [.grow p old nl])
        | some np => (.ok np, [.grow p old nl])
      | none =>
        match a.allocate nl with
        | none => (.error (.allocError nl), [.allocate nl])
        | some np => (.ok np, [.allocate nl])

/-- `RawVec::grow_amortized`: fail with `CapacityOverflow` for zero-sized
types; new capacity is `max(MIN_NON_ZERO_CAP, max(cap * 2, len + additional))`
(the doubling cannot overflow because `cap ≤ isize::MAX`); the buffer is
updated only when `finish_grow` succeeds.  Returns the outcome, the
post-state of the buffer, and the allocator calls made. -/
def RawVec.grow_amortized (td : TypeDesc) (W : Nat) (a : AllocatorModel)
    (v : RawVec) (len additional : Nat) :
    Except Error Unit × RawVec × List AllocCall :=
  if td.size = 0 then (.error .capacityOverflow, v, [])
  else
    match checkedAdd W len additional with
    | none => (.error .capacityOverflow, v, [])
    | some requiredCap =>
      let cap := max (v.cap * 2) requiredCap
      let cap := max (MIN_NON_ZERO_CAP td) cap
      match finish_grow W a (layoutArray td W cap) (v.current_memory td W) with
      | (.error e, calls) => (.error e, v, calls)
      | (.ok np, calls) => (.ok (), ⟨np, cap⟩, calls)

/-- `RawVec::grow_exact`: like `grow_amortized` but the new capacity is
exactly `len + additional`. -/
def RawVec.grow_exact (td : TypeDesc) (W : Nat) (a : AllocatorModel)
    (v : RawVec) (len additional : Nat) :
    Except Error Unit × RawVec × List AllocCall :=
  if td.size = 0 then (.error .capacityOverflow, v, [])
  else
    match checkedAdd W len additional with
    | none => (.error .capacityOverflow, v, [])
    | some cap =>
      match finish_grow W a (layoutArray td W cap) (v.current_memory td W) with
      | (.error e, calls) => (.error e, v, calls)
      | (.ok np, calls) => (.ok (), ⟨np, cap⟩, calls)

/-- `RawVec::try_reserve`: grow (amortized) only when `needs_to_grow`. -/
def RawVec.try_reserve (td : TypeDesc) (W : Nat) (a : AllocatorModel)
    (v : RawVec) (len additional : Nat) :
    Except Error Unit × RawVec × List AllocCall :=
  if v.needs_to_grow td W len additional then
    v.grow_amortized td W a len additional
  else
    (.ok (), v, [])

/-- `RawVec::try_reserve_exact`: grow (exact) only when `needs_to_grow`. -/
def RawVec.try_reserve_exact (td : TypeDesc) (W : Nat) (a : AllocatorModel)
    (v : RawVec) (len additional : Nat) :
    Except Error Unit × RawVec × List AllocCall :=
  if v.needs_to_grow td W len additional then
    v.grow_exact td W a len additional
  else
    (.ok (), v, [])

/-- Outcome of `RawVec::shrink`: success, a reported allocation error, or
an abort caused by the caller violating the `cap <= self.capacity()`
contract (the `assert!` in the source). -/
inductive ShrinkResult where
  | ok (v : RawVec)
  | err (layout : Layout) (v : RawVec)
  | abort
deriving DecidableEq, Repr

/-- `RawVec::shrink`: assert `cap ≤ capacity()`; a buffer with no current
memory is left untouched; shrinking to 0 deallocates and resets to the
empty state; otherwise delegate to the allocator's `shrink` and on success
record the new pointer and capacity.  (The source's first assert,
`size_of::<T>() % align_of::<T>() == 0`, holds for every Rust type and is
carried by `TypeDesc.size_align`.) -/
def RawVec.shrink (td : TypeDesc) (W : Nat) (a : AllocatorModel)
    (v : RawVec) (cap : Nat) : ShrinkResult × List AllocCall :=
  if ¬ cap ≤ v.capacity td W then (.abort, [])
  else
    match v.current_memory td W with
    | none => (.ok v, [])
    | some (p, layout) =>
      if cap = 0 then
        (.ok ⟨danglingPtr td, 0⟩, [.deallocate p layout])
      else
        let newSize := td.size * cap % 2 ^ W
        let nl : Layout := ⟨newSize, layout.align⟩
        match a.shrink p layout nl with
        | none => (.err nl v, [.shrink p layout nl])
        | some np => (.ok ⟨np, cap⟩, [.shrink p layout nl])

/-- `RawVec::try_shrink_to_fit`: delegates to `shrink`. -/
def RawVec.try_shrink_to_fit (td : TypeDesc) (W : Nat) (a : AllocatorModel)
    (v : RawVec) (cap : Nat) : ShrinkResult × List AllocCall :=
  v.shrink td W a cap

/-!
## The B-tree map and its entry API

`Entry`, `VacantEntry`, `OccupiedEntry` and their operations are
translated from `crates/rune-alloc/src/btree/map/entry.rs`.  The node
layer those operations commit through is not among the sampled sources;
its operations are modelled from the specification (§3 "Node", §4.3
"Node & Handle layer") and carry a `Modelled from the spec:` marker.

A node chain `BChildren` represents the alternating
child/separator/child/…/child sequence of an internal node, so an
internal node structurally holds exactly `len + 1` children for `len`
separating key-value pairs, as §3 requires.
-/

/-- `crate::alloc::AllocError`: the allocator declined a node allocation. -/
inductive AllocError where
  | allocationFailed
deriving DecidableEq, Repr

mutual
/-- Modelled from the spec: a tree node (§3 "Node") — a leaf holds an
ordered list of key-value pairs; an internal node holds pairs plus one
more child link than pairs, encoded as an alternating chain. -/
inductive BNode (K V : Type) where
  | leaf (kvs : List (K × V))
  | internal (children : BChildren K V)
/-- Modelled from the spec: the contents of an internal node — children
alternating with separating key-value pairs (`len + 1` children). -/
inductive BChildren (K V : Type) where
  | last (c : BNode K V)
  | cons (c : BNode K V) (kv : K × V) (rest : BChildren K V)
end

mutual
/-- In-order flattening of a node into its key-value pairs. -/
def BNode.toList {K V : Type} : BNode K V → List (K × V)
  | .leaf kvs => kvs
  | .internal cs => cs.toList
/-- In-order flattening of an internal node's chain. -/
def BChildren.toList {K V : Type} : BChildren K V → List (K × V)
  | .last c => c.toList
  | .cons c kv rest => c.toList ++ kv :: rest.toList
end

/-- Number of separating key-value pairs held directly in a chain. -/
def BChildren.kvCount {K V : Type} : BChildren K V → Nat
  | .last _ => 0
  | .cons _ _ rest => rest.kvCount + 1

/-- Number of key-value pairs held directly in a node (its `len`). -/
def BNode.len {K V : Type} : BNode K V → Nat
  | .leaf kvs => kvs.length
  | .internal cs => cs.kvCount

mutual
/-- Total key-value pairs stored in leaf nodes only (for the spec's
"total KV count across all leaves"). -/
def BNode.leafKVs {K V : Type} : BNode K V → Nat
  | .leaf kvs => kvs.length
  | .internal cs => cs.leafKVs
/-- Total key-value pairs stored in leaves below a chain. -/
def BChildren.leafKVs {K V : Type} : BChildren K V → Nat
  | .last c => c.leafKVs
  | .cons c _ rest => c.leafKVs + rest.leafKVs
end

section BTreeOps

variable {K V : Type} [LinearOrder K]

/-- Guided search in a node's pair list: walk left to right, stop at the
first key not below `k` (the in-node linear/binary search). -/
def lookupKV : List (K × V) → K → Option V
  | [], _ => none
  | kv :: rest, k =>
    if k < kv.1 then none
    else if kv.1 < k then lookupKV rest k
    else some kv.2

mutual
/-- Modelled from the spec: search from a node down to the key (§4.4
`entry` search, descending at each internal node by key comparison). -/
def BNode.findKV : BNode K V → K → Option V
  | .leaf kvs, k => lookupKV kvs k
  | .internal cs, k => cs.findChain k
/-- Search step along an internal node's chain. -/
def BChildren.findChain : BChildren K V → K → Option V
  | .last c, k => c.findKV k
  | .cons c kv rest, k =>
    if k < kv.1 then c.findKV k
    else if kv.1 < k then rest.findChain k
    else some kv.2
end

/-- Ordered insertion of a pair into a node's pair list at the edge the
search would stop at. -/
def insortKV (k : K) (v : V) : List (K × V) → List (K × V)
  | [] => [(k, v)]
  | kv :: rest =>
    if k < kv.1 then (k, v) :: kv :: rest
    else kv :: insortKV k v rest

/-- Split a list at index `i` into a left part, median, and right part. -/
def medianSplit {α : Type _} (l : List α) (i : Nat) : Option (List α × α × List α) :=
  match l.drop i with
  | [] => none
  | m :: r => some (l.take i, m, r)

/-- Split a chain around its `j`-th separating pair. -/
def BChildren.splitGo : BChildren K V → Nat → Option (BChildren K V × (K × V) × BChildren K V)
  | .last _, _ => none
  | .cons c kv rest, 0 => some (.last c, kv, rest)
  | .cons c kv rest, j + 1 =>
    match rest.splitGo j with
    | none => none
    | some (l, m, r) => some (.cons c kv l, m, r)

/-- Result of inserting into a subtree: the node absorbed the pair, or it
was split around a median pair into two nodes handed to the parent. -/
inductive InsRes (K V : Type) where
  | fit (n : BNode K V)
  | split (l : BNode K V) (kv : K × V) (r : BNode K V)

/-- In-order flattening of an insertion result. -/
def InsRes.toList : InsRes K V → List (K × V)
  | .fit n => n.toList
  | .split l kv r => l.toList ++ kv :: r.toList

mutual
/-- Modelled from the spec: `insert_recursing` (§4.3) on a subtree, with
order `B` (a node holds at most `2·B − 1` pairs) and an allocation budget
`fuel` (each new node consumes one unit; exhausted fuel is a declined
allocation).  A full node is split around a median pair; the sibling is
allocated before anything is linked, so failure returns an error without
producing a partial tree. -/
def BNode.insTree (B : Nat) : BNode K V → K → V → Nat → Except AllocError (InsRes K V × Nat)
  | .leaf kvs, k, v, fuel =>
    let kvs' := insortKV k v kvs
    if kvs'.length ≤ 2 * B - 1 then .ok (.fit (.leaf kvs'), fuel)
    else
      match medianSplit kvs' (B - 1) with
      | none => .ok (.fit (.leaf kvs'), fuel)
      | some (lt, m, rt) =>
        match fuel with
        | 0 => .error .allocationFailed
        | f + 1 => .ok (.split (.leaf lt) m (.leaf rt), f)
  | .internal cs, k, v, fuel =>
    match cs.insChain B k v fuel with
    | .error e => .error e
    | .ok (cs', f) =>
      if cs'.kvCount ≤ 2 * B - 1 then .ok (.fit (.internal cs'), f)
      else
        match cs'.splitGo (B - 1) with
        | none => .ok (.fit (.internal cs'), f)
        | some (lt, m, rt) =>
          match f with
          | 0 => .error .allocationFailed
          | f' + 1 => .ok (.split (.internal lt) m (.internal rt), f')
/-- Modelled from the spec: descend along an internal node's chain to the
child the key belongs to, insert there, and absorb a propagated split. -/
def BChildren.insChain (B : Nat) : BChildren K V → K → V → Nat → Except AllocError (BChildren K V × Nat)
  | .last c, k, v, fuel =>
    match c.insTree B k v fuel with
    | .error e => .error e
    | .ok (.fit n', f) => .ok (.last n', f)
    | .ok (.split l m r, f) => .ok (.cons l m (.last r), f)
  | .cons c kv rest, k, v, fuel =>
    if k < kv.1 then
      match c.insTree B k v fuel with
      | .error e => .error e
      | .ok (.fit n', f) => .ok (.cons n' kv rest, f)
      | .ok (.split l m r, f) => .ok (.cons l m (.cons r kv rest), f)
    else
      match rest.insChain B k v fuel with
      | .error e => .error e
      | .ok (rest', f) => .ok (.cons c kv rest', f)
end

/-- Concatenate two chains around a separating pair (used when two
sibling internal nodes are merged). -/
def BChildren.glue : BChildren K V → K × V → BChildren K V → BChildren K V
  | .last c, kv, r => .cons c kv r
  | .cons c kv0 rest, kv, r => .cons c kv0 (rest.glue kv r)

/-- Detach the last child and last separating pair from a chain. -/
def BChildren.unsnoc : BChildren K V → Option (BChildren K V × (K × V) × BNode K V)
  | .last _ => none
  | .cons c kv (.last c2) => some (.last c, kv, c2)
  | .cons c kv (.cons c2 kv2 rest2) =>
    match BChildren.unsnoc (.cons c2 kv2 rest2) with
    | none => none
    | some (init, s, lc) => some (.cons c kv init, s, lc)

/-- Result of rebalancing an underfull child with a sibling: either two
nodes around a new separator (a borrow), or a single merged node. -/
inductive FixResult (K V : Type) where
  | two (l : BNode K V) (kv : K × V) (r : BNode K V)
  | one (m : BNode K V)

/-- Modelled from the spec: merge a node with its right sibling and the
separating pair (§4.3 "merge with a sibling").  Siblings at the same
depth have the same kind; the final case is an unreachable fallback that
still flattens to the same pair sequence. -/
def mergeWithRight : BNode K V → K × V → BNode K V → BNode K V
  | .leaf l, kv, .leaf r => .leaf (l ++ kv :: r)
  | .internal cl, kv, .internal cr => .internal (cl.glue kv cr)
  | c, kv, r => .leaf (c.toList ++ kv :: r.toList)

/-- Modelled from the spec: borrow the first pair (and child) of the
right sibling through the parent (§4.3 "borrowing a KV through the
parent from a sibling").  Unreachable shapes fall back to a merge. -/
def stealRight : BNode K V → K × V → BNode K V → FixResult K V
  | .leaf l, kv, .leaf (x :: xs) => .two (.leaf (l ++ [kv])) x (.leaf xs)
  | .internal cl, kv, .internal (.cons c0 kv0 rest) =>
    .two (.internal (cl.glue kv (.last c0))) kv0 (.internal rest)
  | c, kv, r => .one (mergeWithRight c kv r)

/-- Modelled from the spec: borrow the last pair (and child) of the left
sibling through the parent.  Unreachable shapes fall back to a merge. -/
def stealLeft : BNode K V → K × V → BNode K V → FixResult K V
  | .leaf ll, kv, .leaf cc =>
    match ll.getLast? with
    | none => .one (mergeWithRight (.leaf ll) kv (.leaf cc))
    | some x => .two (.leaf ll.dropLast) x (.leaf (kv :: cc))
  | .internal cl, kv, .internal cc =>
    match cl.unsnoc with
    | none => .one (mergeWithRight (.internal cl) kv (.internal cc))
    | some (init, s, lc) => .two (.internal init) s (.internal (.cons lc kv cc))
  | c, kv, r => .one (mergeWithRight c kv r)

/-- Modelled from the spec: fix an underfull node using its right
sibling — borrow when the sibling is above minimum fill, else merge. -/
def fixWithRight (B : Nat) (c : BNode K V) (kv : K × V) (r : BNode K V) : FixResult K V :=
  if B - 1 < r.len then stealRight c kv r else .one (mergeWithRight c kv r)

/-- Modelled from the spec: fix an underfull node using its left
sibling — borrow when the sibling is above minimum fill, else merge. -/
def fixWithLeft (B : Nat) (l : BNode K V) (kv : K × V) (c : BNode K V) : FixResult K V :=
  if B - 1 < l.len then stealLeft l kv c else .one (mergeWithRight l kv c)

/-- Rebalance the head child of a chain with its right neighbor when the
head has dropped below minimum fill (`B − 1` pairs). -/
def fixHead (B : Nat) (c : BNode K V) (kv : K × V) (rest : BChildren K V) : BChildren K V :=
  if c.len < B - 1 then
    match rest with
    | .last r =>
      match fixWithRight B c kv r with
      | .two l s r' => .cons l s (.last r')
      | .one m => .last m
    | .cons r kv2 rest2 =>
      match fixWithRight B c kv r with
      | .two l s r' => .cons l s (.cons r' kv2 rest2)
      | .one m => .cons m kv2 rest2
  else .cons c kv rest

/-- Rebalance the final child of a chain with its left neighbor when the
final child has dropped below minimum fill. -/
def fixTail (B : Nat) (c : BNode K V) (kv : K × V) (rest : BChildren K V) : BChildren K V :=
  match rest with
  | .last u =>
    if u.len < B - 1 then
      match fixWithLeft B c kv u with
      | .two l s r => .cons l s (.last r)
      | .one m => .last m
    else .cons c kv rest
  | _ => .cons c kv rest

/-- Remove and return the last element of a list. -/
def unsnocList {α : Type _} : List α → Option (List α × α)
  | [] => none
  | [x] => some ([], x)
  | x :: rest =>
    match unsnocList rest with
    | none => none
    | some (init, lastv) => some (x :: init, lastv)

mutual
/-- Modelled from the spec: extract the rightmost pair of a subtree
(used to replace a separating pair being removed from an internal node),
rebalancing on the way back up (§4.3 `remove_kv_tracking`). -/
def BNode.popMax (B : Nat) : BNode K V → Option ((K × V) × BNode K V)
  | .leaf kvs =>
    match unsnocList kvs with
    | none => none
    | some (init, lastv) => some (lastv, .leaf init)
  | .internal cs =>
    match cs.popMaxChain B with
    | none => none
    | some (p, cs') => some (p, .internal cs')
/-- Walk to the last child of a chain, pop there, and rebalance the
final child with its left neighbor if it underflowed. -/
def BChildren.popMaxChain (B : Nat) : BChildren K V → Option ((K × V) × BChildren K V)
  | .last c =>
    match c.popMax B with
    | none => none
    | some (p, c') => some (p, .last c')
  | .cons c kv rest =>
    match rest.popMaxChain B with
    | none => none
    | some (p, rest') => some (p, fixTail B c kv rest')
end

/-- Guided removal from a node's pair list (mirrors `lookupKV`). -/
def delKV : List (K × V) → K → Option ((K × V) × List (K × V))
  | [], _ => none
  | kv :: rest, k =>
    if k < kv.1 then none
    else if kv.1 < k then
      match delKV rest k with
      | none => none
      | some (p, rest') => some (p, kv :: rest')
    else some (kv, rest)

mutual
/-- Modelled from the spec: `remove_kv_tracking` on a subtree (§4.3) —
remove the pair with the given key; when this drops a node below minimum
fill, rebalance by borrowing through the parent from a sibling or by
merging with a sibling, propagating upward.  Returns the removed pair and
the new subtree (whose root may itself be left underfull for the caller). -/
def BNode.delTree (B : Nat) : BNode K V → K → Option ((K × V) × BNode K V)
  | .leaf kvs, k =>
    match delKV kvs k with
    | none => none
    | some (p, kvs') => some (p, .leaf kvs')
  | .internal cs, k =>
    match cs.delChain B k with
    | none => none
    | some (p, cs') => some (p, .internal cs')
/-- Descend along a chain by key comparison; a pair found at this level
is replaced by the rightmost pair of the left child; an underfull child
is rebalanced with a neighbor. -/
def BChildren.delChain (B : Nat) : BChildren K V → K → Option ((K × V) × BChildren K V)
  | .last c, k =>
    match c.delTree B k with
    | none => none
    | some (p, c') => some (p, .last c')
  | .cons c kv rest, k =>
    if k < kv.1 then
      match c.delTree B k with
      | none => none
      | some (p, c') => some (p, fixHead B c' kv rest)
    else if kv.1 < k then
      match rest.delChain B k with
      | none => none
      | some (p, rest') => some (p, fixTail B c kv rest')
    else
      match c.popMax B with
      | none => none
      | some (pm, c') => some (kv, fixHead B c' pm rest)
end

end BTreeOps

/-- `BTreeMap`: an optional root node, a length counter (the allocator
reference is passed to each operation). -/
structure BTreeMap (K V : Type) where
  root : Option (BNode K V)
  length : Nat

/-- The empty map: no root, length 0. -/
def BTreeMap.empty (K V : Type) : BTreeMap K V := ⟨none, 0⟩

/-- All key-value pairs of the map, in order. -/
def BTreeMap.kvList {K V : Type} (m : BTreeMap K V) : List (K × V) :=
  match m.root with
  | none => []
  | some r => r.toList

/-- `VacantEntry` (entry.rs): the pending key plus the (dormant) map.
The source also stores the insertion-point handle, `None` exactly when
the map has no root; the handle's position is recovered here by key
comparison during the commit. -/
structure VacantEntry (K V : Type) where
  key : K
  map : BTreeMap K V

/-- `OccupiedEntry` (entry.rs): the (dormant) map plus the handle to an
existing KV, modelled by the key and the value that handle points at. -/
structure OccupiedEntry (K V : Type) where
  map : BTreeMap K V
  key : K
  value : V

/-- `Entry`: a vacant or occupied view (entry.rs). -/
inductive Entry (K V : Type) where
  | vacant (e : VacantEntry K V)
  | occupied (e : OccupiedEntry K V)

/-- The map a pending entry will commit into. -/
def Entry.mapOf {K V : Type} : Entry K V → BTreeMap K V
  | .vacant e => e.map
  | .occupied e => e.map

section BTreeMapOps

variable {K V : Type} [LinearOrder K]

/-- `BTreeMap::entry`-style search (spec §4.4): an exact match yields an
Occupied entry holding the stored value, otherwise a Vacant entry. -/
def BTreeMap.findValue (m : BTreeMap K V) (k : K) : Option V :=
  match m.root with
  | none => none
  | some r => r.findKV k

/-- `BTreeMap::entry`: search from the root; exact match → Occupied,
otherwise Vacant carrying the key. -/
def BTreeMap.entry (m : BTreeMap K V) (k : K) : Entry K V :=
  match m.findValue k with
  | some v => .occupied ⟨m, k, v⟩
  | none => .vacant ⟨k, m⟩

/-- `VacantEntry::try_insert` (entry.rs): with no root, allocate the
first leaf (one allocation; on failure the map is untouched), push the
pair, set the root and `length = 1`; otherwise run `insert_recursing`,
and on a root split install a new internal root holding the propagated
median (`push_internal_level`, one more allocation), then `length += 1`.
Any failed allocation returns the map in its pre-call state.  Returns the
outcome (the stored value on success), the post-call map, and the
remaining allocation budget. -/
def VacantEntry.try_insert (B : Nat) (e : VacantEntry K V) (value : V) (fuel : Nat) :
    Except AllocError V × BTreeMap K V × Nat :=
  match e.map.root with
  | none =>
    match fuel with
    | 0 => (.error .allocationFailed, e.map, 0)
    | f + 1 => (.ok value, ⟨some (.leaf [(e.key, value)]), 1⟩, f)
  | some root =>
    match root.insTree B e.key value fuel with
    | .error er => (.error er, e.map, 0)
    | .ok (.fit n', f) => (.ok value, ⟨some n', e.map.length + 1⟩, f)
    | .ok (.split l m r, f) =>
      match f with
      | 0 => (.error .allocationFailed, e.map, 0)
      | f' + 1 =>
        (.ok value, ⟨some (.internal (.cons l m (.last r))), e.map.length + 1⟩, f')

/-- `Entry::or_try_insert` (entry.rs): Occupied → the existing value
(`into_mut`) with the map untouched; Vacant → `try_insert`. -/
def Entry.or_try_insert (B : Nat) : Entry K V → V → Nat →
    Except AllocError V × BTreeMap K V × Nat
  | .occupied e, _, fuel => (.ok e.value, e.map, fuel)
  | .vacant e, v, fuel => e.try_insert B v fuel

/-- `Entry::or_try_insert_with` (entry.rs). -/
def Entry.or_try_insert_with (B : Nat) (ent : Entry K V) (d : Unit → V) (fuel : Nat) :
    Except AllocError V × BTreeMap K V × Nat :=
  match ent with
  | .occupied e => (.ok e.value, e.map, fuel)
  | .vacant e => e.try_insert B (d ()) fuel

/-- `Entry::or_try_insert_with_key` (entry.rs): the default function
receives the key captured at entry formation. -/
def Entry.or_try_insert_with_key (B : Nat) (ent : Entry K V) (d : K → V) (fuel : Nat) :
    Except AllocError V × BTreeMap K V × Nat :=
  match ent with
  | .occupied e => (.ok e.value, e.map, fuel)
  | .vacant e => e.try_insert B (d e.key) fuel

/-- `Entry::or_try_default` (entry.rs). -/
def Entry.or_try_default [Inhabited V] (B : Nat) (ent : Entry K V) (fuel : Nat) :
    Except AllocError V × BTreeMap K V × Nat :=
  match ent with
  | .occupied e => (.ok e.value, e.map, fuel)
  | .vacant e => e.try_insert B default fuel

/-- `OccupiedEntry::remove_kv` (entry.rs): run `remove_kv_tracking`,
decrement `length`, and if the removal emptied an internal root
(`emptied_internal_root`), pop one tree level (`pop_internal_level`:
the root is replaced by its sole remaining child). -/
def OccupiedEntry.remove_kv (B : Nat) (e : OccupiedEntry K V) :
    Option ((K × V) × BTreeMap K V) :=
  match e.map.root with
  | none => none
  | some root =>
    match root.delTree B e.key with
    | none => none
    | some (p, root') =>
      let newRoot :=
        match root' with
        | .internal (.last c) => c
        | r => r
      some (p, ⟨some newRoot, e.map.length - 1⟩)

/-- `OccupiedEntry::remove_entry` (entry.rs): delegates to `remove_kv`. -/
def OccupiedEntry.remove_entry (B : Nat) (e : OccupiedEntry K V) :
    Option ((K × V) × BTreeMap K V) :=
  e.remove_kv B

/-- `OccupiedEntry::remove` (entry.rs): the value component of `remove_kv`. -/
def OccupiedEntry.remove (B : Nat) (e : OccupiedEntry K V) :
    Option (V × BTreeMap K V) :=
  (e.remove_kv B).map fun x => (x.1.2, x.2)

end BTreeMapOps

/-- In-order flattening of a rebalancing result. -/
def FixResult.toList {K V : Type} : FixResult K V → List (K × V)
  | .two l kv r => l.toList ++ kv :: r.toList
  | .one m => m.toList

mutual
/-- Structural well-formedness used by the removal lemmas: every node of
the subtree holds at least one pair (true of every tree the structure
builds; the spec's fill invariants imply it). -/
def BNode.nonemptyNodes {K V : Type} : BNode K V → Bool
  | .leaf kvs => !kvs.isEmpty
  | .internal cs => cs.nonemptyNodes
/-- All nodes reachable from a chain hold at least one pair. -/
def BChildren.nonemptyNodes {K V : Type} : BChildren K V → Bool
  | .last c => c.nonemptyNodes
  | .cons c _ rest => c.nonemptyNodes && rest.nonemptyNodes
end

/-- The spec §3 map invariant exactly as claimed: `length == 0 ⇔ root is
absent`, and `length` equals the total KV count across all leaves. -/
def BTreeMap.claimedInvariant {K V : Type} (m : BTreeMap K V) : Prop :=
  (m.length = 0 ↔ m.root = none) ∧
  m.length = (match m.root with | none => 0 | some r => r.leafKVs)

/-- The length invariant the code actually preserves: an absent root
forces length 0, and `length` equals the total KV count across all nodes
(leaves and internals). -/
def BTreeMap.lengthInvariant {K V : Type} (m : BTreeMap K V) : Prop :=
  (m.root = none → m.length = 0) ∧
  m.length = m.kvList.length

/-- Concrete fixture: a 1-byte element type. -/
def td1 : TypeDesc := ⟨1, 1, Nat.one_pos, rfl⟩

/-- Concrete fixture: an allocator that always hands out address 16. -/
def a1 : AllocatorModel :=
  ⟨fun _ => some 16, fun _ _ _ => some 16, fun _ _ _ => some 16⟩

/-- Concrete fixture: an allocator that declines every request. -/
def a0 : AllocatorModel :=
  ⟨fun _ => none, fun _ _ _ => none, fun _ _ _ => none⟩

/-- Concrete fixture: a map whose root is one full leaf (order 6: a node
holds at most 11 pairs), satisfying the spec §3 invariant as claimed. -/
def m11 : BTreeMap Nat Nat :=
  ⟨some (.leaf ((List.range 11).map fun i => (i, i))), 11⟩

/-- Concrete fixture: a singleton map. -/
def m1r : BTreeMap Nat Nat := ⟨some (.leaf [(0, 5)]), 1⟩

/-!
## Supporting lemmas

The flattening lemmas below relate every node-layer operation to its
effect on the in-order pair sequence; the claim theorems are stated in
terms of those sequences.
-/

section Lemmas

variable {K V : Type} [LinearOrder K]

theorem insortKV_decomp (k : K) (v : V) :
    ∀ l : List (K × V), ∃ A Bz, l = A ++ Bz ∧ insortKV k v l = A ++ (k, v) :: Bz
  | [] => ⟨[], [], rfl, rfl⟩
  | kv :: rest => by
    by_cases h : k < kv.1
    · exact ⟨[], kv :: rest, rfl, by simp [insortKV, h]⟩
    · obtain ⟨A, Bz, h1, h2⟩ := insortKV_decomp k v rest
      exact ⟨kv :: A, Bz, by simp [h1], by simp [insortKV, h, h2]⟩

theorem medianSplit_eq {α : Type _} {l : List α} {i : Nat} {a : List α} {m : α}
    {b : List α} (h : medianSplit l i = some (a, m, b)) : l = a ++ m :: b := by
  unfold medianSplit at h
  rcases hd : l.drop i with _ | ⟨x, r⟩ <;> rw [hd] at h <;> simp at h
  obtain ⟨h1, h2, h3⟩ := h
  subst h1 h2 h3
  have ht := l.take_append_drop i
  rw [hd] at ht
  exact ht.symm

theorem delKV_of_lookup (k : K) :
    ∀ (l : List (K × V)) (v : V), lookupKV l k = some v →
      ∃ A Bz, delKV l k = some ((k, v), A ++ Bz) ∧ l = A ++ (k, v) :: Bz
  | [], v => by simp [lookupKV]
  | kv :: rest, v => by
    intro h
    by_cases h1 : k < kv.1
    · simp [lookupKV, h1] at h
    · by_cases h2 : kv.1 < k
      · simp only [lookupKV, if_neg h1, if_pos h2] at h
        obtain ⟨A, Bz, hd, he⟩ := delKV_of_lookup k rest v h
        exact ⟨kv :: A, Bz, by simp [delKV, h1, h2, hd], by simp [he]⟩
      · have hk : kv.1 = k := le_antisymm (not_lt.1 h1) (not_lt.1 h2)
        simp only [lookupKV, if_neg h1, if_neg h2, Option.some.injEq] at h
        refine ⟨[], rest, ?_, ?_⟩
        · simp only [delKV, if_neg h1, if_neg h2]
          rw [show kv = (k, v) from Prod.ext hk h]
          rfl
        · rw [show kv = (k, v) from Prod.ext hk h]
          rfl

theorem unsnocList_ok {α : Type _} :
    ∀ l : List α, l ≠ [] → ∃ init x, unsnocList l = some (init, x) ∧ l = init ++ [x]
  | [], h => absurd rfl h
  | [x], _ => ⟨[], x, rfl, rfl⟩
  | x :: y :: rest, _ => by
    obtain ⟨init, z, h1, h2⟩ := unsnocList_ok (y :: rest) (by simp)
    refine ⟨x :: init, z, ?_, by simp [h2]⟩
    simp only [unsnocList, h1]

end Lemmas

section StructureLemmas

variable {K V : Type}

theorem BChildren.glue_toList :
    ∀ (a : BChildren K V) (kv : K × V) (b : BChildren K V),
      (a.glue kv b).toList = a.toList ++ kv :: b.toList
  | .last c, kv, b => by simp [BChildren.glue, BChildren.toList]
  | .cons c kv0 rest, kv, b => by
    simp [BChildren.glue, BChildren.toList, BChildren.glue_toList rest kv b]

theorem BChildren.unsnoc_toList :
    ∀ (cs : BChildren K V) {init : BChildren K V} {s : K × V} {lc : BNode K V},
      cs.unsnoc = some (init, s, lc) → cs.toList = init.toList ++ s :: lc.toList
  | .last _, _, _, _ => by simp [BChildren.unsnoc]
  | .cons c kv (.last c2), init, s, lc => by
    intro h
    simp only [BChildren.unsnoc, Option.some.injEq, Prod.mk.injEq] at h
    obtain ⟨h1, h2, h3⟩ := h
    subst h1 h2 h3
    simp [BChildren.toList]
  | .cons c kv (.cons c2 kv2 rest2), init, s, lc => by
    intro h
    simp only [BChildren.unsnoc] at h
    rcases hu : BChildren.unsnoc (.cons c2 kv2 rest2) with _ | ⟨⟨i2, s2, l2⟩⟩ <;>
      rw [hu] at h <;> simp at h
    obtain ⟨h1, h2, h3⟩ := h
    subst h1 h2 h3
    have hrec := BChildren.unsnoc_toList (.cons c2 kv2 rest2) hu
    simp only [BChildren.toList] at hrec ⊢
    simp [hrec]

theorem BChildren.splitGo_toList :
    ∀ (cs : BChildren K V) (j : Nat) {l : BChildren K V} {m : K × V} {r : BChildren K V},
      cs.splitGo j = some (l, m, r) → cs.toList = l.toList ++ m :: r.toList
  | .last _, _, l, m, r => by simp [BChildren.splitGo]
  | .cons c kv rest, 0, l, m, r => by
    intro h
    simp only [BChildren.splitGo, Option.some.injEq, Prod.mk.injEq] at h
    obtain ⟨h1, h2, h3⟩ := h
    subst h1 h2 h3
    simp [BChildren.toList]
  | .cons c kv rest, j + 1, l, m, r => by
    intro h
    simp only [BChildren.splitGo] at h
    rcases hs : rest.splitGo j with _ | ⟨⟨l2, m2, r2⟩⟩ <;> rw [hs] at h <;> simp at h
    obtain ⟨h1, h2, h3⟩ := h
    subst h1 h2 h3
    simp [BChildren.toList, BChildren.splitGo_toList rest j hs]

theorem mergeWithRight_toList (c : BNode K V) (kv : K × V) (r : BNode K V) :
    (mergeWithRight c kv r).toList = c.toList ++ kv :: r.toList := by
  cases c <;> cases r <;>
    simp [mergeWithRight, BNode.toList, BChildren.glue_toList]

theorem stealRight_toList (c : BNode K V) (kv : K × V) (r : BNode K V) :
    (stealRight c kv r).toList = c.toList ++ kv :: r.toList := by
  cases c with
  | leaf l =>
    cases r with
    | leaf rl =>
      cases rl with
      | nil => simp [stealRight, FixResult.toList, mergeWithRight_toList]
      | cons x xs => simp [stealRight, FixResult.toList, BNode.toList]
    | internal cr => simp [stealRight, FixResult.toList, mergeWithRight_toList]
  | internal cl =>
    cases r with
    | leaf rl => simp [stealRight, FixResult.toList, mergeWithRight_toList]
    | internal cr =>
      cases cr with
      | last c0 => simp [stealRight, FixResult.toList, mergeWithRight_toList]
      | cons c0 kv0 rest =>
        simp [stealRight, FixResult.toList, BNode.toList, BChildren.toList,
          BChildren.glue_toList]

theorem stealLeft_toList (l : BNode K V) (kv : K × V) (c : BNode K V) :
    (stealLeft l kv c).toList = l.toList ++ kv :: c.toList := by
  cases l with
  | leaf ll =>
    cases c with
    | leaf cc =>
      rcases hg : ll.getLast? with _ | x
      · simp [stealLeft, hg, FixResult.toList, mergeWithRight_toList]
      · have hd : ll.dropLast ++ [x] = ll :=
          List.dropLast_append_getLast? x hg
        simp only [stealLeft, hg, FixResult.toList, BNode.toList]
        rw [← hd]
        simp
    | internal cc => simp [stealLeft, FixResult.toList, mergeWithRight_toList]
  | internal cl =>
    cases c with
    | leaf cc => simp [stealLeft, FixResult.toList, mergeWithRight_toList]
    | internal cc =>
      rcases hu : cl.unsnoc with _ | ⟨⟨init, s, lc⟩⟩
      · simp [stealLeft, hu, FixResult.toList, mergeWithRight_toList]
      · have := BChildren.unsnoc_toList cl hu
        simp [stealLeft, hu, FixResult.toList, BNode.toList, BChildren.toList, this]

theorem fixWithRight_toList (B : Nat) (c : BNode K V) (kv : K × V) (r : BNode K V) :
    (fixWithRight B c kv r).toList = c.toList ++ kv :: r.toList := by
  unfold fixWithRight
  split
  · exact stealRight_toList c kv r
  · simp [FixResult.toList, mergeWithRight_toList]

theorem fixWithLeft_toList (B : Nat) (l : BNode K V) (kv : K × V) (c : BNode K V) :
    (fixWithLeft B l kv c).toList = l.toList ++ kv :: c.toList := by
  unfold fixWithLeft
  split
  · exact stealLeft_toList l kv c
  · simp [FixResult.toList, mergeWithRight_toList]

theorem fixHead_toList (B : Nat) (c : BNode K V) (kv : K × V) (rest : BChildren K V) :
    (fixHead B c kv rest).toList = c.toList ++ kv :: rest.toList := by
  unfold fixHead
  split
  · cases rest with
    | last r =>
      rcases hf : fixWithRight B c kv r with ⟨l2, s2, r2⟩ | m2 <;>
        have := fixWithRight_toList B c kv r <;>
          rw [hf] at this <;>
            simp only [FixResult.toList] at this <;>
              simp [hf, BChildren.toList, this]
    | cons r kv2 rest2 =>
      rcases hf : fixWithRight B c kv r with ⟨l2, s2, r2⟩ | m2 <;>
        have := fixWithRight_toList B c kv r <;>
          rw [hf] at this <;>
            simp only [FixResult.toList] at this
      · have h2 : l2.toList ++ s2 :: (r2.toList ++ kv2 :: rest2.toList) =
            (l2.toList ++ s2 :: r2.toList) ++ kv2 :: rest2.toList := by simp
        simp only [hf, BChildren.toList]
        rw [h2, this]
        simp
      · simp only [hf, BChildren.toList]
        rw [this]
        simp
  · simp [BChildren.toList]

theorem fixTail_toList (B : Nat) (c : BNode K V) (kv : K × V) (rest : BChildren K V) :
    (fixTail B c kv rest).toList = c.toList ++ kv :: rest.toList := by
  cases rest with
  | last u =>
    simp only [fixTail]
    split
    · rcases hf : fixWithLeft B c kv u with ⟨l2, s2, r2⟩ | m2 <;>
        have := fixWithLeft_toList B c kv u <;>
          rw [hf] at this <;>
            simp only [FixResult.toList] at this <;>
              simp [hf, BChildren.toList, this]
    · simp [BChildren.toList]
  | cons u kv2 rest2 => simp [fixTail, BChildren.toList]

end StructureLemmas

section PopDelLemmas

variable {K V : Type}

mutual
theorem BNode.popMax_spec (B : Nat) :
    ∀ (n : BNode K V), n.nonemptyNodes = true →
      ∃ p n', n.popMax B = some (p, n') ∧ n.toList = n'.toList ++ [p]
  | .leaf kvs, h => by
    have hne : kvs ≠ [] := by
      simpa [BNode.nonemptyNodes] using h
    obtain ⟨init, x, h1, h2⟩ := unsnocList_ok kvs hne
    exact ⟨x, .leaf init, by simp [BNode.popMax, h1], by simp [BNode.toList, h2]⟩
  | .internal cs, h => by
    have h' : cs.nonemptyNodes = true := by simpa [BNode.nonemptyNodes] using h
    obtain ⟨p, cs', h1, h2⟩ := BChildren.popMaxChain_spec B cs h'
    exact ⟨p, .internal cs', by simp [BNode.popMax, h1], by simp [BNode.toList, h2]⟩
theorem BChildren.popMaxChain_spec (B : Nat) :
    ∀ (cs : BChildren K V), cs.nonemptyNodes = true →
      ∃ p cs', cs.popMaxChain B = some (p, cs') ∧ cs.toList = cs'.toList ++ [p]
  | .last c, h => by
    have h' : c.nonemptyNodes = true := by simpa [BChildren.nonemptyNodes] using h
    obtain ⟨p, c', h1, h2⟩ := BNode.popMax_spec B c h'
    exact ⟨p, .last c', by simp [BChildren.popMaxChain, h1],
      by simp [BChildren.toList, h2]⟩
  | .cons c kv rest, h => by
    have h' : rest.nonemptyNodes = true := by
      simp [BChildren.nonemptyNodes] at h
      exact h.2
    obtain ⟨p, rest', h1, h2⟩ := BChildren.popMaxChain_spec B rest h'
    refine ⟨p, fixTail B c kv rest', by simp [BChildren.popMaxChain, h1], ?_⟩
    simp [BChildren.toList, fixTail_toList, h2]
end

end PopDelLemmas

section DelFindLemmas

variable {K V : Type} [LinearOrder K]

mutual
theorem BNode.delTree_of_find (B : Nat) :
    ∀ (n : BNode K V) (k : K) (v : V), n.nonemptyNodes = true →
      n.findKV k = some v →
      ∃ n' A Bz, n.delTree B k = some ((k, v), n') ∧
        n.toList = A ++ (k, v) :: Bz ∧ n'.toList = A ++ Bz
  | .leaf kvs, k, v, _, hf => by
    simp only [BNode.findKV] at hf
    obtain ⟨A, Bz, hd, he⟩ := delKV_of_lookup k kvs v hf
    exact ⟨.leaf (A ++ Bz), A, Bz, by simp [BNode.delTree, hd],
      by simpa [BNode.toList] using he, by simp [BNode.toList]⟩
  | .internal cs, k, v, hne, hf => by
    simp only [BNode.findKV] at hf
    have hne' : cs.nonemptyNodes = true := by simpa [BNode.nonemptyNodes] using hne
    obtain ⟨cs', A, Bz, h1, h2, h3⟩ := BChildren.delChain_of_find B cs k v hne' hf
    exact ⟨.internal cs', A, Bz, by simp [BNode.delTree, h1],
      by simpa [BNode.toList] using h2, by simpa [BNode.toList] using h3⟩
theorem BChildren.delChain_of_find (B : Nat) :
    ∀ (cs : BChildren K V) (k : K) (v : V), cs.nonemptyNodes = true →
      cs.findChain k = some v →
      ∃ cs' A Bz, cs.delChain B k = some ((k, v), cs') ∧
        cs.toList = A ++ (k, v) :: Bz ∧ cs'.toList = A ++ Bz
  | .last c, k, v, hne, hf => by
    simp only [BChildren.findChain] at hf
    have hne' : c.nonemptyNodes = true := by simpa [BChildren.nonemptyNodes] using hne
    obtain ⟨c', A, Bz, h1, h2, h3⟩ := BNode.delTree_of_find B c k v hne' hf
    exact ⟨.last c', A, Bz, by simp [BChildren.delChain, h1],
      by simpa [BChildren.toList] using h2, by simpa [BChildren.toList] using h3⟩
  | .cons c kv rest, k, v, hne, hf => by
    have hc : c.nonemptyNodes = true := by
      simp [BChildren.nonemptyNodes] at hne
      exact hne.1
    have hr : rest.nonemptyNodes = true := by
      simp [BChildren.nonemptyNodes] at hne
      exact hne.2
    by_cases h1 : k < kv.1
    · simp only [BChildren.findChain, if_pos h1] at hf
      obtain ⟨c', A, Bz, hd, h2, h3⟩ := BNode.delTree_of_find B c k v hc hf
      refine ⟨fixHead B c' kv rest, A, Bz ++ kv :: rest.toList,
        by simp [BChildren.delChain, if_pos h1, hd], ?_, ?_⟩
      · simp [BChildren.toList, h2]
      · simp [fixHead_toList, h3]
    · by_cases h2 : kv.1 < k
      · simp only [BChildren.findChain, if_neg h1, if_pos h2] at hf
        obtain ⟨rest', A, Bz, hd, h3, h4⟩ := BChildren.delChain_of_find B rest k v hr hf
        refine ⟨fixTail B c kv rest', c.toList ++ kv :: A, Bz,
          by simp [BChildren.delChain, if_neg h1, if_pos h2, hd], ?_, ?_⟩
        · simp [BChildren.toList, h3]
        · simp [fixTail_toList, h4]
      · have hk : kv.1 = k := le_antisymm (not_lt.1 h1) (not_lt.1 h2)
        simp only [BChildren.findChain, if_neg h1, if_neg h2, Option.some.injEq] at hf
        obtain ⟨pm, c', hp1, hp2⟩ := BNode.popMax_spec B c hc
        refine ⟨fixHead B c' pm rest, c.toList, rest.toList, ?_, ?_, ?_⟩
        · simp only [BChildren.delChain, if_neg h1, if_neg h2, hp1]
          rw [show kv = (k, v) from Prod.ext hk hf]
        · rw [show kv = (k, v) from Prod.ext hk hf]
          simp [BChildren.toList]
        · simp [fixHead_toList, hp2]
end

end DelFindLemmas

section InsLemmas

variable {K V : Type} [LinearOrder K]

mutual
theorem BNode.insTree_decomp (B : Nat) :
    ∀ (n : BNode K V) (k : K) (v : V) (fuel : Nat) (res : InsRes K V) (f : Nat),
      n.insTree B k v fuel = .ok (res, f) →
      ∃ A Bz, n.toList = A ++ Bz ∧ res.toList = A ++ (k, v) :: Bz
  | .leaf kvs, k, v, fuel, res, f => by
    intro h
    obtain ⟨A, Bz, h1, h2⟩ := insortKV_decomp k v kvs
    refine ⟨A, Bz, by simpa [BNode.toList] using h1, ?_⟩
    simp only [BNode.insTree] at h
    split at h
    · simp only [Except.ok.injEq, Prod.mk.injEq] at h
      rw [← h.1]
      simpa [InsRes.toList, BNode.toList] using h2
    · split at h
      · simp only [Except.ok.injEq, Prod.mk.injEq] at h
        rw [← h.1]
        simpa [InsRes.toList, BNode.toList] using h2
      · rename_i lt m rt hms
        split at h
        · exact absurd h (by simp)
        · simp only [Except.ok.injEq, Prod.mk.injEq] at h
          rw [← h.1]
          have hms' := medianSplit_eq hms
          simp only [InsRes.toList, BNode.toList]
          rw [← hms']
          exact h2
  | .internal cs, k, v, fuel, res, f => by
    intro h
    simp only [BNode.insTree] at h
    rcases hic : cs.insChain B k v fuel with e | ⟨cs', f2⟩ <;> rw [hic] at h
    · exact absurd h (by simp)
    · obtain ⟨A, Bz, h1, h2⟩ := BChildren.insChain_decomp B cs k v fuel cs' f2 hic
      refine ⟨A, Bz, by simpa [BNode.toList] using h1, ?_⟩
      simp only [] at h
      split at h
      · simp only [Except.ok.injEq, Prod.mk.injEq] at h
        rw [← h.1]
        simpa [InsRes.toList, BNode.toList] using h2
      · split at h
        · simp only [Except.ok.injEq, Prod.mk.injEq] at h
          rw [← h.1]
          simpa [InsRes.toList, BNode.toList] using h2
        · rename_i lt m rt hsg
          split at h
          · exact absurd h (by simp)
          · simp only [Except.ok.injEq, Prod.mk.injEq] at h
            rw [← h.1]
            have hsg' := BChildren.splitGo_toList cs' (B - 1) hsg
            simp only [InsRes.toList, BNode.toList]
            rw [← hsg']
            exact h2
theorem BChildren.insChain_decomp (B : Nat) :
    ∀ (cs : BChildren K V) (k : K) (v : V) (fuel : Nat) (cs' : BChildren K V) (f : Nat),
      cs.insChain B k v fuel = .ok (cs', f) →
      ∃ A Bz, cs.toList = A ++ Bz ∧ cs'.toList = A ++ (k, v) :: Bz
  | .last c, k, v, fuel, cs', f => by
    intro h
    simp only [BChildren.insChain] at h
    rcases hit : c.insTree B k v fuel with e | ⟨res, f2⟩ <;> rw [hit] at h
    · exact absurd h (by simp)
    · obtain ⟨A, Bz, h1, h2⟩ := BNode.insTree_decomp B c k v fuel res f2 hit
      rcases res with n' | ⟨l, m, r⟩ <;>
        simp only [Except.ok.injEq, Prod.mk.injEq] at h <;>
          rw [← h.1]
      · exact ⟨A, Bz, by simpa [BChildren.toList] using h1,
          by simpa [BChildren.toList, InsRes.toList] using h2⟩
      · exact ⟨A, Bz, by simpa [BChildren.toList] using h1,
          by simpa [BChildren.toList, InsRes.toList] using h2⟩
  | .cons c kv rest, k, v, fuel, cs', f => by
    intro h
    simp only [BChildren.insChain] at h
    by_cases hlt : k < kv.1
    · rw [if_pos hlt] at h
      rcases hit : c.insTree B k v fuel with e | ⟨res, f2⟩ <;> rw [hit] at h
      · exact absurd h (by simp)
      · obtain ⟨A, Bz, h1, h2⟩ := BNode.insTree_decomp B c k v fuel res f2 hit
        refine ⟨A, Bz ++ kv :: rest.toList, ?_, ?_⟩
        · simp [BChildren.toList, h1]
        · rcases res with n' | ⟨l, m, r⟩ <;>
            simp only [Except.ok.injEq, Prod.mk.injEq] at h <;>
              rw [← h.1] <;>
                simp only [InsRes.toList, BNode.toList] at h2
          · simp [BChildren.toList, h2]
          · simp only [BChildren.toList]
            rw [show l.toList ++ m :: (r.toList ++ kv :: rest.toList) =
                (l.toList ++ m :: r.toList) ++ kv :: rest.toList by simp, h2]
            simp
    · rw [if_neg hlt] at h
      rcases hic : rest.insChain B k v fuel with e | ⟨rest', f2⟩ <;> rw [hic] at h
      · exact absurd h (by simp)
      · obtain ⟨A, Bz, h1, h2⟩ := BChildren.insChain_decomp B rest k v fuel rest' f2 hic
        simp only [Except.ok.injEq, Prod.mk.injEq] at h
        rw [← h.1]
        exact ⟨c.toList ++ kv :: A, Bz, by simp [BChildren.toList, h1],
          by simp [BChildren.toList, h2]⟩
end

end InsLemmas

section MapLemmas

variable {K V : Type} [LinearOrder K]

theorem VacantEntry.try_insert_ok (B : Nat) (e : VacantEntry K V) (value : V)
    (fuel : Nat) (r : V) (m' : BTreeMap K V) (f : Nat)
    (h : e.try_insert B value fuel = (.ok r, m', f)) :
    r = value ∧ m'.root ≠ none ∧
    (∃ A Bz, e.map.kvList = A ++ Bz ∧ m'.kvList = A ++ (e.key, value) :: Bz) ∧
    (e.map.root = none → m'.length = 1) ∧
    (e.map.root ≠ none → m'.length = e.map.length + 1) := by
  unfold VacantEntry.try_insert at h
  rcases hroot : e.map.root with _ | rt <;> rw [hroot] at h
  · cases fuel with
    | zero => exact absurd h (by simp)
    | succ f2 =>
      simp only [Prod.mk.injEq, Except.ok.injEq] at h
      obtain ⟨hr, hm, _⟩ := h
      subst hr
      refine ⟨rfl, by simp [← hm], ⟨[], [], ?_, ?_⟩, ?_, ?_⟩
      · simp [BTreeMap.kvList, hroot]
      · simp [← hm, BTreeMap.kvList, BNode.toList]
      · simp [← hm]
      · intro hc; exact absurd rfl hc
  · dsimp only at h
    rcases hit : rt.insTree B e.key value fuel with er | ⟨res, f2⟩ <;> rw [hit] at h
    · exact absurd h (by simp)
    · obtain ⟨A, Bz, h1, h2⟩ := BNode.insTree_decomp B rt e.key value fuel res f2 hit
      rcases res with n' | ⟨l, m, rr⟩
      · simp only [Prod.mk.injEq, Except.ok.injEq] at h
        obtain ⟨hr, hm, _⟩ := h
        subst hr
        refine ⟨rfl, by simp [← hm], ⟨A, Bz, ?_, ?_⟩, ?_, ?_⟩
        · simp [BTreeMap.kvList, hroot, h1]
        · simpa [← hm, BTreeMap.kvList, InsRes.toList] using h2
        · intro hc; exact absurd hc (by simp)
        · intro _; simp [← hm]
      · cases f2 with
        | zero => exact absurd h (by simp)
        | succ f3 =>
          simp only [Prod.mk.injEq, Except.ok.injEq] at h
          obtain ⟨hr, hm, _⟩ := h
          subst hr
          refine ⟨rfl, by simp [← hm], ⟨A, Bz, ?_, ?_⟩, ?_, ?_⟩
          · simp [BTreeMap.kvList, hroot, h1]
          · simp only [InsRes.toList] at h2
            simp [← hm, BTreeMap.kvList, BNode.toList, BChildren.toList]
            exact h2
          · intro hc; exact absurd hc (by simp)
          · intro _; simp [← hm]

theorem VacantEntry.try_insert_err (B : Nat) (e : VacantEntry K V) (value : V)
    (fuel : Nat) (er : AllocError) (m' : BTreeMap K V) (f : Nat)
    (h : e.try_insert B value fuel = (.error er, m', f)) : m' = e.map := by
  unfold VacantEntry.try_insert at h
  rcases hroot : e.map.root with _ | rt <;> rw [hroot] at h
  · cases fuel with
    | zero => simp only [Prod.mk.injEq] at h; exact h.2.1.symm
    | succ f2 => exact absurd h (by simp)
  · dsimp only at h
    rcases hit : rt.insTree B e.key value fuel with er2 | ⟨res, f2⟩ <;> rw [hit] at h
    · simp only [Prod.mk.injEq] at h
      exact h.2.1.symm
    · rcases res with n' | ⟨l, m, rr⟩
      · exact absurd h (by simp)
      · cases f2 with
        | zero => simp only [Prod.mk.injEq] at h; exact h.2.1.symm
        | succ f3 => exact absurd h (by simp)

end MapLemmas

theorem wsub_eq_sub {W a b : Nat} (hba : b ≤ a) (ha : a < 2 ^ W) :
    wsub W a b = a - b := by
  unfold wsub
  have hadd : a + (2 ^ W - b) = (a - b) + 2 ^ W := by omega
  rw [hadd, Nat.add_mod_right, Nat.mod_eq_of_lt (by omega)]

theorem capacity_pos_size {td : TypeDesc} {W : Nat} {v : RawVec} (hsz : 0 < td.size) :
    v.capacity td W = v.cap := by
  simp [RawVec.capacity, Nat.pos_iff_ne_zero.1 hsz]

/-- C1: for a buffer with tracked capacity `c`, logical length `len ≤ c`
and a positively sized element type, `try_reserve(len, additional)` grows
exactly when `additional > c − len`, and when it grows and succeeds the
new capacity is `max(2·c, len + additional, MIN_NON_ZERO_CAP)`, where the
minimum non-zero capacity is 8 for 1-byte elements, 4 for elements of at
most 1 KiB, and 1 otherwise. -/
theorem claim_C1_reserve_growth (td : TypeDesc) (W : Nat) (a : AllocatorModel)
    (v : RawVec) (len additional : Nat) (hsz : 0 < td.size) (hW : 0 < W)
    (hlen : len ≤ v.cap) (hcap : v.cap ≤ isizeMax W) :
    (v.needs_to_grow td W len additional = true ↔ additional > v.cap - len) ∧
    (¬ additional > v.cap - len →
      RawVec.try_reserve td W a v len additional = (.ok (), v, [])) ∧
    (∀ v' calls, additional > v.cap - len →
      RawVec.try_reserve td W a v len additional = (.ok (), v', calls) →
      v'.cap = max (max (2 * v.cap) (len + additional)) (MIN_NON_ZERO_CAP td)) := by
  have hclt : v.cap < 2 ^ W := by
    have h1 : 2 ^ (W - 1) ≤ 2 ^ W := Nat.pow_le_pow_right (by norm_num) (by omega)
    have h2 : 0 < 2 ^ (W - 1) := Nat.pos_pow_of_pos _ (by norm_num)
    unfold isizeMax at hcap
    omega
  have hng : v.needs_to_grow td W len additional = true ↔ additional > v.cap - len := by
    unfold RawVec.needs_to_grow
    rw [capacity_pos_size hsz, wsub_eq_sub hlen hclt]
    simp
  refine ⟨hng, ?_, ?_⟩
  · intro hno
    unfold RawVec.try_reserve
    rw [if_neg (by simp [hng, hno])]
  · intro v' calls hyes hres
    unfold RawVec.try_reserve at hres
    rw [if_pos (by simp [hng, hyes])] at hres
    unfold RawVec.grow_amortized at hres
    rw [if_neg (by omega)] at hres
    rcases hca : checkedAdd W len additional with _ | req <;> rw [hca] at hres
    · exact absurd hres (by simp)
    · have hreq : req = len + additional := by
        unfold checkedAdd at hca
        split at hca
        · simpa using hca.symm
        · exact absurd hca (by simp)
      dsimp only at hres
      split at hres
      · exact absurd hres (by simp)
      · rename_i np calls2 hfg
        simp only [Prod.mk.injEq] at hres
        rw [← hres.2.1]
        rw [hreq, Nat.max_comm, Nat.mul_comm 2 v.cap]

/-- Witness for C1: a 1-byte element type, an empty buffer, and a
cooperative allocator; reserving 1 element grows to capacity 8. -/
theorem claim_C1_reserve_growth_witness :
    (⟨16, 8⟩ : RawVec).cap = max (max (2 * 0) (0 + 1)) (MIN_NON_ZERO_CAP td1) :=
  (claim_C1_reserve_growth td1 64 a1 ⟨1, 0⟩ 0 1 (by decide) (by decide) (by decide)
    (by decide)).2.2 ⟨16, 8⟩ [.allocate ⟨8, 1⟩] (by decide) (by rfl)

/-- C2: whenever `try_reserve` or `try_reserve_exact` returns an error
(`CapacityOverflow` or an allocation failure), the buffer's pointer and
tracked capacity are exactly what they were before the call. -/
theorem claim_C2_error_unchanged (td : TypeDesc) (W : Nat) (a : AllocatorModel)
    (v : RawVec) (len additional : Nat) :
    (∀ e v' calls, RawVec.try_reserve td W a v len additional = (.error e, v', calls) →
      v' = v) ∧
    (∀ e v' calls, RawVec.try_reserve_exact td W a v len additional = (.error e, v', calls) →
      v' = v) := by
  constructor
  · intro e v' calls h
    unfold RawVec.try_reserve at h
    split at h
    · unfold RawVec.grow_amortized at h
      split at h
      · simp only [Prod.mk.injEq] at h
        exact h.2.1.symm
      · split at h
        · simp only [Prod.mk.injEq] at h
          exact h.2.1.symm
        · dsimp only at h
          split at h
          · simp only [Prod.mk.injEq] at h
            exact h.2.1.symm
          · exact absurd h (by simp)
    · exact absurd h (by simp)
  · intro e v' calls h
    unfold RawVec.try_reserve_exact at h
    split at h
    · unfold RawVec.grow_exact at h
      split at h
      · simp only [Prod.mk.injEq] at h
        exact h.2.1.symm
      · split at h
        · simp only [Prod.mk.injEq] at h
          exact h.2.1.symm
        · split at h
          · simp only [Prod.mk.injEq] at h
            exact h.2.1.symm
          · exact absurd h (by simp)
    · exact absurd h (by simp)

/-- Witness for C2: a declining allocator errors and the buffer state is
returned unchanged (for both reserve flavours). -/
theorem claim_C2_error_unchanged_witness :
    RawVec.try_reserve td1 64 a0 ⟨1, 0⟩ 0 1 =
      (.error (.allocError ⟨8, 1⟩), ⟨1, 0⟩, [.allocate ⟨8, 1⟩]) ∧
    RawVec.try_reserve_exact td1 64 a0 ⟨1, 0⟩ 0 1 =
      (.error (.allocError ⟨1, 1⟩), ⟨1, 0⟩, [.allocate ⟨1, 1⟩]) ∧
    (⟨1, 0⟩ : RawVec) = ⟨1, 0⟩ ∧ (⟨1, 0⟩ : RawVec) = ⟨1, 0⟩ :=
  ⟨by rfl, by rfl,
    (claim_C2_error_unchanged td1 64 a0 ⟨1, 0⟩ 0 1).1 (.allocError ⟨8, 1⟩) ⟨1, 0⟩
      [.allocate ⟨8, 1⟩] (by rfl),
    (claim_C2_error_unchanged td1 64 a0 ⟨1, 0⟩ 0 1).2 (.allocError ⟨1, 1⟩) ⟨1, 0⟩
      [.allocate ⟨1, 1⟩] (by rfl)⟩

/-- C7: `try_with_capacity_in(n)` returns an empty unallocated buffer for
`n = 0` or a zero-sized element type without consulting the allocator;
when the layout computation (or `alloc_guard`) for `n` elements exceeds
the addressable-object limit it returns `CapacityOverflow`, still without
consulting the allocator; otherwise it delegates to `allocate`. -/
theorem claim_C7_with_capacity (td : TypeDesc) (W : Nat) (a : AllocatorModel) (n : Nat) :
    (td.size = 0 ∨ n = 0 →
      RawVec.try_with_capacity_in td W a n = (.ok (RawVec.new_in td), [])) ∧
    (0 < td.size → 0 < n → layoutArray td W n = none →
      RawVec.try_with_capacity_in td W a n = (.error .capacityOverflow, [])) ∧
    (∀ L, 0 < td.size → 0 < n → layoutArray td W n = some L →
      alloc_guard W L.size = .error .capacityOverflow →
      RawVec.try_with_capacity_in td W a n = (.error .capacityOverflow, [])) ∧
    (∀ L, 0 < td.size → 0 < n → layoutArray td W n = some L →
      alloc_guard W L.size = .ok () →
      RawVec.try_with_capacity_in td W a n =
        (match a.allocate L with
         | none => (.error (.allocError L), [.allocate L])
         | some p => (.ok ⟨p, n⟩, [.allocate L]))) := by
  unfold RawVec.try_with_capacity_in RawVec.try_allocate_in
  refine ⟨fun h => by rw [if_pos h], ?_, ?_, ?_⟩
  · intro hsz hn hla
    rw [if_neg (by omega), hla]
  · intro L hsz hn hla hg
    rw [if_neg (by omega), hla]
    dsimp only
    rw [hg]
  · intro L hsz hn hla hg
    rw [if_neg (by omega), hla]
    dsimp only
    rw [hg]

/-- Witness for C7: allocating capacity 1 for a 1-byte type delegates to
the allocator with layout `{size 1, align 1}`. -/
theorem claim_C7_with_capacity_witness :
    RawVec.try_with_capacity_in td1 64 a1 1 =
      (match a1.allocate ⟨1, 1⟩ with
       | none => (.error (.allocError ⟨1, 1⟩), [.allocate ⟨1, 1⟩])
       | some p => (.ok ⟨p, 1⟩, [.allocate ⟨1, 1⟩])) :=
  (claim_C7_with_capacity td1 64 a1 1).2.2.2 ⟨1, 1⟩ (by decide) (by decide)
    (by rfl) (by rfl)

/-- C8: `try_shrink_to_fit(target)` aborts (contract violation) when the
target exceeds `capacity()`; on an allocated buffer a target of 0
deallocates the block and resets to the empty state (dangling pointer,
capacity 0), and a non-zero target delegates to the allocator's `shrink`,
setting the capacity to exactly the target on success. -/
theorem claim_C8_shrink_to_fit (td : TypeDesc) (W : Nat) (a : AllocatorModel)
    (v : RawVec) (c : Nat) :
    (¬ c ≤ v.capacity td W → RawVec.try_shrink_to_fit td W a v c = (.abort, [])) ∧
    (0 < td.size → 0 < v.cap →
      RawVec.try_shrink_to_fit td W a v 0 =
        (.ok (RawVec.new_in td), [.deallocate v.ptr ⟨td.size * v.cap % 2 ^ W, td.align⟩])) ∧
    (∀ np, 0 < td.size → 0 < v.cap → 0 < c → c ≤ v.cap →
      a.shrink v.ptr ⟨td.size * v.cap % 2 ^ W, td.align⟩ ⟨td.size * c % 2 ^ W, td.align⟩
        = some np →
      RawVec.try_shrink_to_fit td W a v c =
        (.ok ⟨np, c⟩,
          [.shrink v.ptr ⟨td.size * v.cap % 2 ^ W, td.align⟩
            ⟨td.size * c % 2 ^ W, td.align⟩])) := by
  unfold RawVec.try_shrink_to_fit RawVec.shrink
  refine ⟨fun h => by rw [if_pos h], ?_, ?_⟩
  · intro hsz hcap
    rw [if_neg (by simp)]
    unfold RawVec.current_memory
    rw [if_neg (by omega)]
    dsimp only
    rw [if_pos rfl]
    rfl
  · intro np hsz hcap hc hcle hshrink
    rw [if_neg (by rw [capacity_pos_size hsz]; omega)]
    unfold RawVec.current_memory
    rw [if_neg (by omega)]
    dsimp only
    rw [if_neg (by omega)]
    rw [hshrink]

/-- Witness for C8: shrinking an 8-capacity buffer of 1-byte elements to
4 calls the allocator's `shrink` and sets the capacity to 4. -/
theorem claim_C8_shrink_to_fit_witness :
    RawVec.try_shrink_to_fit td1 64 a1 ⟨16, 8⟩ 4 =
      (.ok ⟨16, 4⟩, [.shrink 16 ⟨8, 1⟩ ⟨4, 1⟩]) :=
  (claim_C8_shrink_to_fit td1 64 a1 ⟨16, 8⟩ 4).2.2 16 (by decide) (by decide)
    (by decide) (by decide) (by rfl)

/-- C9: for a zero-sized element type, `capacity()` reports `usize::MAX`
regardless of the tracked field, creation never allocates, any growth
attempt fails with `CapacityOverflow` before the allocator is consulted,
and no reserve or shrink operation ever records an allocator call. -/
theorem claim_C9_zero_sized (td : TypeDesc) (W : Nat) (a : AllocatorModel)
    (v : RawVec) (len additional n c : Nat) (hz : td.size = 0) (hc : c ≤ usizeMax W) :
    v.capacity td W = usizeMax W ∧
    RawVec.try_allocate_in td W a n = (.ok (RawVec.new_in td), []) ∧
    RawVec.grow_amortized td W a v len additional = (.error .capacityOverflow, v, []) ∧
    RawVec.grow_exact td W a v len additional = (.error .capacityOverflow, v, []) ∧
    (RawVec.try_reserve td W a v len additional).2.2 = [] ∧
    (RawVec.try_reserve_exact td W a v len additional).2.2 = [] ∧
    (RawVec.try_shrink_to_fit td W a v c).2 = [] := by
  have hga : RawVec.grow_amortized td W a v len additional =
      (.error .capacityOverflow, v, []) := by
    unfold RawVec.grow_amortized
    rw [if_pos hz]
  have hge : RawVec.grow_exact td W a v len additional =
      (.error .capacityOverflow, v, []) := by
    unfold RawVec.grow_exact
    rw [if_pos hz]
  refine ⟨by simp [RawVec.capacity, hz], ?_, hga, hge, ?_, ?_, ?_⟩
  · unfold RawVec.try_allocate_in
    rw [if_pos (Or.inl hz)]
  · unfold RawVec.try_reserve
    split
    · rw [hga]
    · rfl
  · unfold RawVec.try_reserve_exact
    split
    · rw [hge]
    · rfl
  · unfold RawVec.try_shrink_to_fit RawVec.shrink
    rw [if_neg (by simp [RawVec.capacity, hz, hc])]
    unfold RawVec.current_memory
    rw [if_pos (Or.inl hz)]

/-- Witness for C9 at a concrete zero-sized type. -/
theorem claim_C9_zero_sized_witness :
    (⟨7, 5⟩ : RawVec).capacity ⟨0, 1, Nat.one_pos, rfl⟩ 64 = usizeMax 64 ∧
    RawVec.grow_amortized ⟨0, 1, Nat.one_pos, rfl⟩ 64 a1 ⟨7, 5⟩ 0 1 =
      (.error .capacityOverflow, ⟨7, 5⟩, []) :=
  have h := claim_C9_zero_sized ⟨0, 1, Nat.one_pos, rfl⟩ 64 a1 ⟨7, 5⟩ 0 1 3 2
    rfl (by decide)
  ⟨h.1, h.2.2.1⟩

/-- C10: for an unallocated buffer, `try_shrink_to_fit(0)` succeeds
without calling the allocator and leaves the buffer unchanged; likewise
for a zero-sized element type and every target. -/
theorem claim_C10_shrink_noop (td : TypeDesc) (W : Nat) (a : AllocatorModel)
    (v : RawVec) (c : Nat) (hc : c ≤ usizeMax W) :
    (v.cap = 0 → RawVec.try_shrink_to_fit td W a v 0 = (.ok v, [])) ∧
    (td.size = 0 → RawVec.try_shrink_to_fit td W a v c = (.ok v, [])) := by
  unfold RawVec.try_shrink_to_fit RawVec.shrink
  constructor
  · intro h0
    rw [if_neg (by simp)]
    unfold RawVec.current_memory
    rw [if_pos (Or.inr h0)]
  · intro hz
    rw [if_neg (by simp [RawVec.capacity, hz, hc])]
    unfold RawVec.current_memory
    rw [if_pos (Or.inl hz)]

/-- Witness for C10: shrinking an unallocated buffer to 0 is a no-op. -/
theorem claim_C10_shrink_noop_witness :
    RawVec.try_shrink_to_fit td1 64 a1 ⟨1, 0⟩ 0 = (.ok ⟨1, 0⟩, []) :=
  (claim_C10_shrink_noop td1 64 a1 ⟨1, 0⟩ 0 (by decide)).1 rfl

theorem OccupiedEntry.remove_kv_spec {K V : Type} [LinearOrder K] (B : Nat)
    (m : BTreeMap K V) (k : K) (v : V) (rt : BNode K V) (hm : m.root = some rt)
    (hne : rt.nonemptyNodes = true) (hfind : rt.findKV k = some v) :
    ∃ m' A Bz, OccupiedEntry.remove_kv B ⟨m, k, v⟩ = some ((k, v), m') ∧
      m.kvList = A ++ (k, v) :: Bz ∧ m'.kvList = A ++ Bz ∧
      m'.length = m.length - 1 ∧ m'.root ≠ none := by
  obtain ⟨rt', A, Bz, hd, h2, h3⟩ := BNode.delTree_of_find B rt k v hne hfind
  unfold OccupiedEntry.remove_kv
  rw [show (⟨m, k, v⟩ : OccupiedEntry K V).map = m from rfl, hm]
  dsimp only
  rw [hd]
  dsimp only
  refine ⟨_, A, Bz, rfl, by simp [BTreeMap.kvList, hm, h2], ?_, rfl, by simp⟩
  cases rt' with
  | leaf kvs => simpa [BTreeMap.kvList, BNode.toList] using h3
  | internal cs =>
    cases cs with
    | last c =>
      simp only [BTreeMap.kvList]
      simpa [BNode.toList, BChildren.toList] using h3
    | cons c kv rest => simpa [BTreeMap.kvList, BNode.toList] using h3

/-- C3: for every map state and insertion committed through a
`VacantEntry` (`try_insert` and the `or_try_insert` family), a failed
allocation leaves the map — its length and all pre-existing key/value
pairs — identical to its pre-call state. -/
theorem claim_C3_failed_insert_atomic {K V : Type} [LinearOrder K] [Inhabited V]
    (B : Nat) (m : BTreeMap K V) (k : K) (value : V) (dw : Unit → V) (dk : K → V)
    (fuel : Nat) :
    (∀ e : VacantEntry K V, ∀ er m' f,
      e.try_insert B value fuel = (.error er, m', f) →
      m' = e.map ∧ m'.length = e.map.length ∧ m'.kvList = e.map.kvList) ∧
    (∀ er m' f, Entry.or_try_insert B (m.entry k) value fuel = (.error er, m', f) →
      m' = m) ∧
    (∀ er m' f, Entry.or_try_insert_with B (m.entry k) dw fuel = (.error er, m', f) →
      m' = m) ∧
    (∀ er m' f, Entry.or_try_insert_with_key B (m.entry k) dk fuel = (.error er, m', f) →
      m' = m) ∧
    (∀ er m' f, Entry.or_try_default B (m.entry k) fuel = (.error er, m', f) →
      m' = m) := by
  have hvac : ∀ (w : V) er m' f,
      VacantEntry.try_insert B ⟨k, m⟩ w fuel = (.error er, m', f) → m' = m :=
    fun w er m' f h => VacantEntry.try_insert_err B ⟨k, m⟩ w fuel er m' f h
  refine ⟨?_, ?_, ?_, ?_, ?_⟩
  · intro e er m' f h
    have := VacantEntry.try_insert_err B e value fuel er m' f h
    exact ⟨this, by rw [this], by rw [this]⟩
  all_goals
    intro er m' f h
  all_goals
    unfold BTreeMap.entry at h
  all_goals
    rcases hf : m.findValue k with _ | v0 <;> rw [hf] at h <;> dsimp only at h
  · simp only [Entry.or_try_insert] at h
    exact hvac value er m' f h
  · exact absurd h (by simp [Entry.or_try_insert])
  · simp only [Entry.or_try_insert_with] at h
    exact hvac (dw ()) er m' f h
  · exact absurd h (by simp [Entry.or_try_insert_with])
  · simp only [Entry.or_try_insert_with_key] at h
    exact hvac (dk k) er m' f h
  · exact absurd h (by simp [Entry.or_try_insert_with_key])
  · simp only [Entry.or_try_default] at h
    exact hvac default er m' f h
  · exact absurd h (by simp [Entry.or_try_default])

/-- Witness for C3: with no allocation budget, inserting into the empty
map fails and returns the map unchanged. -/
theorem claim_C3_failed_insert_atomic_witness :
    Entry.or_try_insert 6 ((BTreeMap.empty Nat Nat).entry 0) 7 0 =
      (.error .allocationFailed, BTreeMap.empty Nat Nat, 0) ∧
    BTreeMap.empty Nat Nat = BTreeMap.empty Nat Nat :=
  ⟨by rfl,
    (claim_C3_failed_insert_atomic 6 (BTreeMap.empty Nat Nat) 0 7 (fun _ => 7)
      (fun _ => 7) 0).2.1 .allocationFailed (BTreeMap.empty Nat Nat) 0 (by rfl)⟩

/-- C4: `or_try_insert` (and its with/with_key/default variants) on an
Occupied entry returns the already-stored value and leaves the map
untouched; on a Vacant entry it inserts exactly the given (or computed)
value at the key's position and returns that newly stored value. -/
theorem claim_C4_or_try_insert {K V : Type} [LinearOrder K] [Inhabited V] (B : Nat)
    (m : BTreeMap K V) (k : K) (d : V) (dw : Unit → V) (dk : K → V) (fuel : Nat) :
    (∀ v, m.findValue k = some v →
      Entry.or_try_insert B (m.entry k) d fuel = (.ok v, m, fuel)) ∧
    (m.findValue k = none →
      ∀ r m' f, Entry.or_try_insert B (m.entry k) d fuel = (.ok r, m', f) →
        r = d ∧ ∃ A Bz, m.kvList = A ++ Bz ∧ m'.kvList = A ++ (k, d) :: Bz) ∧
    Entry.or_try_insert_with B (m.entry k) dw fuel =
      Entry.or_try_insert B (m.entry k) (dw ()) fuel ∧
    Entry.or_try_insert_with_key B (m.entry k) dk fuel =
      Entry.or_try_insert B (m.entry k) (dk k) fuel ∧
    Entry.or_try_default B (m.entry k) fuel =
      Entry.or_try_insert B (m.entry k) default fuel := by
  refine ⟨?_, ?_, ?_, ?_, ?_⟩
  · intro v hv
    unfold BTreeMap.entry
    rw [hv]
    rfl
  · intro hv r m' f h
    unfold BTreeMap.entry at h
    rw [hv] at h
    dsimp only at h
    simp only [Entry.or_try_insert] at h
    obtain ⟨hr, _, ⟨A, Bz, h1, h2⟩, _, _⟩ :=
      VacantEntry.try_insert_ok B ⟨k, m⟩ d fuel r m' f h
    exact ⟨hr, A, Bz, h1, h2⟩
  all_goals
    unfold BTreeMap.entry
  all_goals
    rcases hf : m.findValue k with _ | v0 <;> rfl

/-- Witness for C4: inserting value 7 at a vacant key of the empty map
stores exactly `(0, 7)` and returns 7. -/
theorem claim_C4_or_try_insert_witness :
    ((7 : Nat) = 7 ∧ ∃ A Bz, (BTreeMap.empty Nat Nat).kvList = A ++ Bz ∧
      (VacantEntry.try_insert 6 ⟨0, BTreeMap.empty Nat Nat⟩ 7 1).2.1.kvList =
        A ++ ((0 : Nat), (7 : Nat)) :: Bz) :=
  (claim_C4_or_try_insert 6 (BTreeMap.empty Nat Nat) 0 7 (fun _ => 7) (fun _ => 7)
    1).2.1 (by rfl) 7 (VacantEntry.try_insert 6 ⟨0, BTreeMap.empty Nat Nat⟩ 7 1).2.1
    (VacantEntry.try_insert 6 ⟨0, BTreeMap.empty Nat Nat⟩ 7 1).2.2 (by rfl)

/-- Counterexample to C5 as stated: (a) `m11` (one full order-6 leaf)
satisfies the claimed invariant, the 12th insertion commits successfully,
and the result violates "length equals the KV count across all leaves"
(the split moves the median into the new internal root, so the leaves
hold 11 pairs while the length is 12); (b) `m1r` satisfies the claimed
invariant, removing its only key succeeds, and the result has length 0
with the (empty leaf) root still present, violating
`length == 0 → root is absent`. -/
theorem claim_C5_counterexample :
    m11.claimedInvariant ∧
    (VacantEntry.try_insert 6 ⟨11, m11⟩ 99 2).1 = .ok 99 ∧
    ¬ (VacantEntry.try_insert 6 ⟨11, m11⟩ 99 2).2.1.claimedInvariant ∧
    m1r.claimedInvariant ∧
    OccupiedEntry.remove_kv 6 ⟨m1r, 0, 5⟩ =
      some ((0, 5), ⟨some (.leaf []), 0⟩) ∧
    ¬ (⟨some (.leaf ([] : List (Nat × Nat))), 0⟩ : BTreeMap Nat Nat).claimedInvariant := by
  refine ⟨⟨?_, ?_⟩, by rfl, ?_, ⟨?_, ?_⟩, by rfl, ?_⟩
  · constructor
    · intro h
      exact absurd h (by decide)
    · intro h
      simp [m11] at h
  · decide
  · intro h
    exact absurd h.2 (by decide)
  · constructor
    · intro h
      exact absurd h (by decide)
    · intro h
      simp [m1r] at h
  · decide
  · intro h
    have := h.1.1 rfl
    exact absurd this (by simp)

/-- C5 (amended): on maps satisfying the length invariant the code
preserves — an absent root forces length 0, and `length` equals the total
KV count across all nodes (leaves and internals) — every successful entry
commit preserves it: `VacantEntry::try_insert`, and
`OccupiedEntry::remove_kv` (on an occupied key of a structurally
well-formed map). -/
theorem claim_C5_amended_invariant {K V : Type} [LinearOrder K] (B : Nat)
    (m : BTreeMap K V) (k : K) (value : V) (fuel : Nat) :
    (∀ r m' f, VacantEntry.try_insert B ⟨k, m⟩ value fuel = (.ok r, m', f) →
      m.lengthInvariant → m'.lengthInvariant) ∧
    (∀ v, m.findValue k = some v →
      (∀ rt, m.root = some rt → rt.nonemptyNodes = true) →
      ∀ p m', OccupiedEntry.remove_kv B ⟨m, k, v⟩ = some (p, m') →
        m.lengthInvariant → m'.lengthInvariant) := by
  constructor
  · intro r m' f h hI
    obtain ⟨hr, hroot', ⟨A, Bz, h1, h2⟩, hl0, hl1⟩ :=
      VacantEntry.try_insert_ok B ⟨k, m⟩ value fuel r m' f h
    have hlen' : m'.length = m.length + 1 := by
      rcases hm : m.root with _ | rt
      · rw [hl0 hm, hI.1 hm]
      · exact hl1 (by simp [hm])
    refine ⟨fun hc => absurd hc hroot', ?_⟩
    rw [hlen', h2, hI.2, h1]
    simp only [List.length_append, List.length_cons]
    omega
  · intro v hfind hne p m' hrem hI
    unfold BTreeMap.findValue at hfind
    rcases hm : m.root with _ | rt <;> rw [hm] at hfind
    · exact absurd hfind (by simp)
    · obtain ⟨m'', A, Bz, hd, h2, h3, h4, h5⟩ :=
        OccupiedEntry.remove_kv_spec B m k v rt hm (hne rt hm) hfind
      rw [hd] at hrem
      simp only [Option.some.injEq, Prod.mk.injEq] at hrem
      rw [← hrem.2]
      refine ⟨fun hc => absurd hc h5, ?_⟩
      rw [h4, h3, hI.2, h2]
      simp only [List.length_append, List.length_cons]
      omega

/-- Witness for C5 (amended): preservation holds at a concrete insertion
into the empty map and a concrete removal from a singleton map. -/
theorem claim_C5_amended_invariant_witness :
    (VacantEntry.try_insert 6 ⟨0, BTreeMap.empty Nat Nat⟩ 7 1).2.1.lengthInvariant ∧
    (⟨some (.leaf ([] : List (Nat × Nat))), 0⟩ : BTreeMap Nat Nat).lengthInvariant :=
  ⟨(claim_C5_amended_invariant 6 (BTreeMap.empty Nat Nat) 0 7 1).1 7
      (VacantEntry.try_insert 6 ⟨0, BTreeMap.empty Nat Nat⟩ 7 1).2.1
      (VacantEntry.try_insert 6 ⟨0, BTreeMap.empty Nat Nat⟩ 7 1).2.2 (by rfl)
      ⟨fun _ => rfl, by decide⟩,
    (claim_C5_amended_invariant 6 m1r 0 5 1).2 5 (by rfl)
      (fun rt h => by
        rw [show rt = BNode.leaf [((0 : Nat), (5 : Nat))] from
          (Option.some.inj (show some (BNode.leaf [((0 : Nat), (5 : Nat))]) = some rt from h)).symm]
        decide)
      (0, 5) ⟨some (.leaf []), 0⟩ (by rfl) ⟨by simp [m1r], by decide⟩⟩

/-- C6: committing an Occupied entry with `remove_entry` returns exactly
the `(key, value)` pair stored for that key, the key is absent from the
map afterwards, and the length is exactly one less than before; `remove`
returns the value component of the same pair. -/
theorem claim_C6_remove_entry {K V : Type} [LinearOrder K] (B : Nat)
    (m : BTreeMap K V) (k : K) (v : V) (hfind : m.findValue k = some v)
    (hne : ∀ rt, m.root = some rt → rt.nonemptyNodes = true)
    (hsorted : (m.kvList.map Prod.fst).Pairwise (· < ·))
    (hlen : m.length = m.kvList.length) :
    ∃ m', OccupiedEntry.remove_entry B ⟨m, k, v⟩ = some ((k, v), m') ∧
      m'.length + 1 = m.length ∧
      k ∉ m'.kvList.map Prod.fst ∧
      OccupiedEntry.remove B ⟨m, k, v⟩ = some (v, m') := by
  unfold BTreeMap.findValue at hfind
  rcases hm : m.root with _ | rt <;> rw [hm] at hfind
  · exact absurd hfind (by simp)
  · obtain ⟨m', A, Bz, hd, h2, h3, h4, h5⟩ :=
      OccupiedEntry.remove_kv_spec B m k v rt hm (hne rt hm) hfind
    refine ⟨m', by rw [OccupiedEntry.remove_entry, hd], ?_, ?_, ?_⟩
    · rw [h4, hlen, h2]
      simp only [List.length_append, List.length_cons]
      omega
    · have hkeys : m.kvList.map Prod.fst = A.map Prod.fst ++ k :: Bz.map Prod.fst := by
        rw [h2]
        simp
      rw [hkeys] at hsorted
      have hap := List.pairwise_append.1 hsorted
      have hA : ∀ x ∈ A.map Prod.fst, x < k :=
        fun x hx => hap.2.2 x hx k (by simp)
      have hB : ∀ x ∈ Bz.map Prod.fst, k < x :=
        fun x hx => (List.pairwise_cons.1 hap.2.1).1 x hx
      rw [h3]
      simp only [List.map_append, List.mem_append]
      rintro (hx | hx)
      · exact absurd (hA k hx) (lt_irrefl k)
      · exact absurd (hB k hx) (lt_irrefl k)
    · rw [OccupiedEntry.remove, hd]
      rfl

/-- Witness for C6 at a concrete singleton map. -/
theorem claim_C6_remove_entry_witness :
    ∃ m', OccupiedEntry.remove_entry 6 ⟨m1r, 0, 5⟩ = some ((0, 5), m') ∧
      m'.length + 1 = m1r.length ∧
      (0 : Nat) ∉ m'.kvList.map Prod.fst ∧
      OccupiedEntry.remove 6 ⟨m1r, 0, 5⟩ = some (5, m') :=
  claim_C6_remove_entry 6 m1r 0 5 (by rfl)
    (fun rt h => by
      rw [show rt = BNode.leaf [((0 : Nat), (5 : Nat))] from
        (Option.some.inj (show some (BNode.leaf [((0 : Nat), (5 : Nat))]) = some rt from h)).symm]
      decide)
    (by simp [m1r, BTreeMap.kvList, BNode.toList])
    (by decide)
